import Mathlib

/-!
Verification of the bounding-box evaluation utilities of
keras_cv/metrics/coco/utils.py, shallowly embedded over plain lists.

Tensors are modelled as (nested) lists of rationals: the source code only
compares, copies and selects values, so exact rational arithmetic is a
faithful model of the float comparisons on representable inputs.  TF index
selection (tf.where followed by tf.gather_nd) is modelled by tfWhere and
tfGather; dictionary access with possibly missing keys is modelled by
Option-valued fields and an Except error monad.
-/

/-- Errors surfaced by the embedded operations, mirroring the Python and
TensorFlow exceptions the source can raise: KeyError on a missing dict key,
NameError on an undefined variable, ValueError from an explicit raise, and
InvalidArgumentError from an out-of-range tensor slice. -/
inductive Err where
  | keyError : String → Err
  | nameError : String → Err
  | valueError : Err
  | invalidArgument : Err
deriving DecidableEq

/-- tf.where on a 1-D boolean tensor: the (increasing) list of indices at
which the condition holds. -/
def tfWhere (cond : List Bool) : List ℕ :=
  (List.range cond.length).filter (fun i => cond.getD i false)

/-- tf.gather_nd on a 1-D index list: select the rows at the given indices. -/
def tfGather {α : Type} (l : List α) (inds : List ℕ) : List α :=
  inds.filterMap (fun i => l[i]?)

/-- Python/TensorFlow integer indexing t[i] on the leading axis: a negative
index counts from the end; an index outside [-len, len) raises. -/
def tfIndex {α : Type} (l : List α) (i : ℤ) : Except Err α :=
  let j : ℤ := if i < 0 then i + l.length else i
  if j < 0 then .error .invalidArgument
  else
    match l[j.toNat]? with
    | some v => .ok v
    | none => .error .invalidArgument

/-- A single-image bounding-box dictionary.  Each field is Option-valued so
that a missing dictionary key can be modelled; boxes is a list of rows
(corner-format coordinate lists), classes a list of integer labels and
confidence a list of scores. -/
structure BoxDict where
  boxes : Option (List (List ℚ))
  classes : Option (List ℤ)
  confidence : Option (List ℚ)
deriving DecidableEq

/-- A batched bounding-box dictionary: one extra leading axis per field. -/
structure BatchBoxDict where
  boxes : Option (List (List (List ℚ)))
  classes : Option (List (List ℤ))
  confidence : Option (List (List ℚ))
deriving DecidableEq

/-- Dictionary key lookup: KeyError when the key is absent. -/
def getKey {α : Type} (key : String) : Option α → Except Err α
  | none => .error (.keyError key)
  | some v => .ok v

/-- bounding_box_area: (right - left) * (bottom - top), with the XYXY corner
layout LEFT = 0, TOP = 1, RIGHT = 2, BOTTOM = 3. -/
def bounding_box_area (box : List ℚ) : ℚ :=
  (box.getD 2 0 - box.getD 0 0) * (box.getD 3 0 - box.getD 1 0)

/-- The boolean area-range predicate of filter_boxes_by_area_range:
areas >= min_area logical_and areas < max_area. -/
def inAreaRange (min_area max_area : ℚ) (box : List ℚ) : Bool :=
  decide (min_area ≤ bounding_box_area box) && decide (bounding_box_area box < max_area)

/-- The index list selected by filter_boxes_by_area_range
(tf.where over the area-range condition). -/
def area_range_indices (boxes : List (List ℚ)) (min_area max_area : ℚ) : List ℕ :=
  tfWhere (boxes.map (inAreaRange min_area max_area))

/-- filter_boxes_by_area_range: keep the rows whose area lies in
[min_area, max_area), via tf.where and tf.gather_nd. -/
def filter_boxes_by_area_range (boxes : List (List ℚ)) (min_area max_area : ℚ) :
    List (List ℚ) :=
  tfGather boxes (area_range_indices boxes min_area max_area)

/-- filter_boxes: keep the rows whose entry in the given column equals the
given value (the source defaults the column, called axis there, to 4, the
class column of the 6-wide box format). -/
def filter_boxes (boxes : List (List ℚ)) (value : ℚ) (axis : ℕ) : List (List ℚ) :=
  tfGather boxes (tfWhere (boxes.map (fun r => decide (r.getD axis 0 = value))))

/-- get_boxes_for_image: read the three keys of a batched dictionary, then
slice each field at the given image index (sequencing written with explicit
Except.bind, the desugaring of the straight-line Python statements). -/
def get_boxes_for_image (bb : BatchBoxDict) (index : ℤ) : Except Err BoxDict :=
  (getKey "boxes" bb.boxes).bind fun boxes =>
    (getKey "classes" bb.classes).bind fun classes =>
      (getKey "confidence" bb.confidence).bind fun confidence =>
        (tfIndex boxes index).bind fun b =>
          (tfIndex classes index).bind fun c =>
            (tfIndex confidence index).bind fun f =>
              .ok ⟨some b, some c, some f⟩

/-- filter_out_sentinels: read the three keys, compute the indices where
classes is not -1, and gather every field at those indices. -/
def filter_out_sentinels (bb : BoxDict) : Except Err BoxDict :=
  (getKey "boxes" bb.boxes).bind fun boxes =>
    (getKey "classes" bb.classes).bind fun classes =>
      (getKey "confidence" bb.confidence).bind fun confidence =>
        let indices := tfWhere (classes.map (fun x => decide (x ≠ -1)))
        .ok ⟨some (tfGather boxes indices), some (tfGather classes indices),
          some (tfGather confidence indices)⟩

/-- order_by_confidence: after the explicit confidence-key check (ValueError)
and the key reads, line 119 of the source evaluates tf.shape(preds_for_img)
where preds_for_img is an undefined name, so every call that reaches that
line raises NameError.  The rank-2 check of the source cannot fail here
because BoxDict.boxes is rank 2 by construction. -/
def order_by_confidence (bb : BoxDict) : Except Err BoxDict :=
  if bb.confidence.isNone then .error .valueError
  else
    (getKey "boxes" bb.boxes).bind fun _boxes =>
      (getKey "classes" bb.classes).bind fun _classes =>
        (getKey "confidence" bb.confidence).bind fun _confidence =>
          .error (.nameError "preds_for_img")

/-- Right-pad a list to length n with copies of the sentinel s
(no-op when the list is already at least that long). -/
def padTo {α : Type} (l : List α) (n : ℕ) (s : α) : List α :=
  l ++ List.replicate (n - l.length) s

/-- Length of the longest member list (the target length that
tf.RaggedTensor.to_tensor pads the ragged axis to). -/
def maxLen {α : Type} (sets : List (List α)) : ℕ :=
  sets.foldr (fun s m => max s.length m) 0

/-- Longest inner row over a whole list of 2-D sets. -/
def rowMax (sets : List (List (List ℚ))) : ℕ :=
  sets.foldr (fun s m => max (maxLen s) m) 0

/-- to_sentinel_padded_bounding_box_tensor on the boxes field: ragged-stack
the per-image 2-D box tensors and pad every missing value with -1; missing
rows become all -1 rows, and every ragged axis is padded to its global
maximum. -/
def to_sentinel_padded_boxes (sets : List (List (List ℚ))) : List (List (List ℚ)) :=
  sets.map (fun s =>
    (s.map (fun row => padTo row (rowMax sets) (-1))) ++
      List.replicate (maxLen sets - s.length) (List.replicate (rowMax sets) (-1)))

/-- to_sentinel_padded_bounding_box_tensor on the classes field. -/
def to_sentinel_padded_classes (sets : List (List ℤ)) : List (List ℤ) :=
  sets.map (fun s => padTo s (maxLen sets) (-1))

/-- to_sentinel_padded_bounding_box_tensor on the confidence field. -/
def to_sentinel_padded_confidence (sets : List (List ℚ)) : List (List ℚ) :=
  sets.map (fun s => padTo s (maxLen sets) (-1))

/-- The clamped initial best-IoU of match_boxes: the source computes
tf.math.minimum(threshold, 1 - 1e-10); the literal 1 - 1e-10 is modelled by
the exact rational it denotes, written in kernel-reducible normal form
(the lemma epsClamp_eq below states the equality with 1 - 1/10^10). -/
def epsClamp : ℚ := mkRat 9999999999 10000000000


/-- The inner loop of match_boxes over the ground-truth indices in gts, for a
fixed predicted box: cur is the pair of the running best IoU and the running
match index.  A ground-truth index is skipped when it is already matched
(its gt_matches entry is greater than -1) or when its IoU is strictly below
the running best; otherwise it becomes the new running match. -/
def bestLoop (iousCol : ℕ → ℚ) (gt_matches : List ℤ) :
    ℚ × ℤ → List ℕ → ℚ × ℤ
  | cur, [] => cur
  | cur, g :: gts =>
    if gt_matches.getD g (-1) > -1 then bestLoop iousCol gt_matches cur gts
    else if iousCol g < cur.1 then bestLoop iousCol gt_matches cur gts
    else bestLoop iousCol gt_matches (iousCol g, (g : ℤ)) gts

/-- The outer loop of match_boxes over the predicted-box indices in ds:
run the inner loop, write the resulting match index into pred_matches at the
current predicted index, and when a match was found mark the ground-truth
slot with the predicted index. -/
def matchLoop (ious : ℕ → ℕ → ℚ) (num_true : ℕ) (threshold : ℚ) :
    List ℤ → List ℤ → List ℕ → List ℤ
  | _, pred_matches, [] => pred_matches
  | gt_matches, pred_matches, d :: ds =>
    let best := bestLoop (fun g => ious g d) gt_matches
      (min threshold epsClamp, -1) (List.range num_true)
    let pred_matches' := pred_matches.set d best.2
    if best.2 = -1 then matchLoop ious num_true threshold gt_matches pred_matches' ds
    else matchLoop ious num_true threshold
      (gt_matches.set best.2.toNat (d : ℤ)) pred_matches' ds

/-- match_boxes: greedily match predicted boxes, in index order, to the
still-unmatched ground-truth box of highest IoU, starting the per-prediction
best IoU at min(threshold, 1 - 1e-10).  The IoU lookup table is a function
of the ground-truth and predicted indices together with its two dimensions,
modelling the rectangular tensor of shape [num_true, num_pred]. -/
def match_boxes (num_true num_pred : ℕ) (ious : ℕ → ℕ → ℚ) (threshold : ℚ) :
    List ℤ :=
  matchLoop ious num_true threshold
    (List.replicate num_true (-1)) (List.replicate num_pred (-1))
    (List.range num_pred)

/-- Invariant of the outer matcher loop relating the ground-truth markers,
the partial prediction matches, and the still-unprocessed prediction
indices ds. -/
def MatcherInv (num_true : ℕ) (f : ℕ → ℕ → ℚ) (t : ℚ)
    (gt_matches pred_matches : List ℤ) (ds : List ℕ) : Prop :=
  gt_matches.length = num_true ∧
  ds.Nodup ∧
  (∀ d ∈ ds, d < pred_matches.length ∧ pred_matches.getD d (-1) = -1) ∧
  (∀ x ∈ pred_matches, x = -1 ∨
    (0 ≤ x ∧ x < num_true ∧ gt_matches.getD x.toNat (-1) > -1)) ∧
  (pred_matches.filter (fun x => decide (x ≠ -1))).Nodup ∧
  (∀ j : ℕ, 0 ≤ pred_matches.getD j (-1) →
    min t epsClamp ≤ f (pred_matches.getD j (-1)).toNat j)

/-- What holds of the finished match result: one entry per predicted box,
every non-sentinel entry a distinct ground-truth index below num_true, and
every matched IoU at least the clamped threshold. -/
def MatcherPost (num_true num_pred : ℕ) (f : ℕ → ℕ → ℚ) (t : ℚ)
    (r : List ℤ) : Prop :=
  r.length = num_pred ∧
  (∀ x ∈ r, x = -1 ∨ (0 ≤ x ∧ x < num_true)) ∧
  (r.filter (fun x => decide (x ≠ -1))).Nodup ∧
  (∀ j : ℕ, 0 ≤ r.getD j (-1) → min t epsClamp ≤ f (r.getD j (-1)).toNat j)

theorem epsClamp_eq : epsClamp = 1 - 1 / 10000000000 := by
  norm_num [epsClamp, mkRat, Rat.normalize]

example :
    match_boxes 2 3
      (fun i j => ([[mkRat 9 10, mkRat 1 10, 0], [mkRat 2 10, mkRat 8 10, mkRat 95 100]].getD i []
        |>.getD j 0)) (mkRat 1 2) = [0, 1, -1] := by decide

example : match_boxes 2 1 (fun _ _ => mkRat 4 5) (mkRat 1 2) = [1] := by decide

example : match_boxes 1 1 (fun _ _ => epsClamp) 1 = [0] := by decide

example : match_boxes 0 3 (fun _ _ => 0) (mkRat 1 2) = [-1, -1, -1] := by decide

/-! ### Lemmas about the tensor-operation primitives -/

theorem tfWhere_map_cons {α : Type} (p : α → Bool) (x : α) (xs : List α) :
    tfWhere ((x :: xs).map p) =
      if p x then 0 :: (tfWhere (xs.map p)).map Nat.succ
      else (tfWhere (xs.map p)).map Nat.succ := by
  unfold tfWhere
  simp only [List.map_cons, List.length_cons, List.length_map,
    List.range_succ_eq_map, List.filter_cons, List.getD_cons_zero]
  rw [List.filter_map]
  have hcomp : ((fun i => (p x :: List.map p xs).getD i false) ∘ Nat.succ)
      = (fun i => (List.map p xs).getD i false) := by
    funext i
    simp [List.getD_cons_succ]
  rw [hcomp]

theorem tfGather_cons_map_succ {α : Type} (x : α) (xs : List α) (inds : List ℕ) :
    tfGather (x :: xs) (inds.map Nat.succ) = tfGather xs inds := by
  unfold tfGather
  rw [List.filterMap_map]
  congr 1
  funext i
  simp [Function.comp, List.getElem?_cons_succ]

theorem tfGather_tfWhere_map {α : Type} (p : α → Bool) (l : List α) :
    tfGather l (tfWhere (l.map p)) = l.filter p := by
  induction l with
  | nil => rfl
  | cons x xs ih =>
    rw [tfWhere_map_cons]
    by_cases h : p x
    · rw [if_pos h, List.filter_cons_of_pos h]
      unfold tfGather
      rw [List.filterMap_cons]
      simp only [List.getElem?_cons_zero]
      rw [show (List.filterMap (fun i => (x :: xs)[i]?) (List.map Nat.succ (tfWhere (xs.map p))))
          = tfGather (x :: xs) ((tfWhere (xs.map p)).map Nat.succ) from rfl]
      rw [tfGather_cons_map_succ, ih]
    · rw [if_neg h, List.filter_cons_of_neg (by simpa using h)]
      rw [tfGather_cons_map_succ, ih]

theorem tfGather_range {α : Type} (l : List α) :
    tfGather l (List.range l.length) = l := by
  induction l with
  | nil => rfl
  | cons x xs ih =>
    rw [List.length_cons, List.range_succ_eq_map]
    unfold tfGather
    rw [List.filterMap_cons]
    simp only [List.getElem?_cons_zero]
    rw [show (List.filterMap (fun i => (x :: xs)[i]?) (List.map Nat.succ (List.range xs.length)))
        = tfGather (x :: xs) ((List.range xs.length).map Nat.succ) from rfl]
    rw [tfGather_cons_map_succ, ih]

theorem mem_tfWhere_map {α : Type} (p : α → Bool) (l : List α) (dflt : α) (i : ℕ) :
    i ∈ tfWhere (l.map p) ↔ i < l.length ∧ p (l.getD i dflt) = true := by
  unfold tfWhere
  simp only [List.mem_filter, List.mem_range, List.length_map]
  refine and_congr_right fun h => ?_
  rw [List.getD_eq_getElem?_getD, List.getD_eq_getElem?_getD,
    List.getElem?_map, List.getElem?_eq_getElem h]
  rfl

theorem tfWhere_pairwise (cond : List Bool) :
    List.Pairwise (· < ·) (tfWhere cond) :=
  (List.pairwise_lt_range _).filter _

theorem tfWhere_map_all_true {α : Type} (p : α → Bool) (l : List α)
    (h : ∀ x ∈ l, p x = true) : tfWhere (l.map p) = List.range l.length := by
  unfold tfWhere
  rw [List.length_map]
  apply List.filter_eq_self.mpr
  intro i hi
  rw [List.mem_range] at hi
  rw [List.getD_eq_getElem?_getD, List.getElem?_map, List.getElem?_eq_getElem hi]
  exact h _ (List.getElem_mem hi)

theorem padTo_eq_self {α : Type} (l : List α) (n : ℕ) (s : α) (h : n ≤ l.length) :
    padTo l n s = l := by
  unfold padTo
  rw [Nat.sub_eq_zero_of_le h, List.replicate_zero, List.append_nil]

theorem maxLen_le {α : Type} (sets : List (List α)) (k : ℕ)
    (h : ∀ s ∈ sets, s.length ≤ k) : maxLen sets ≤ k := by
  induction sets with
  | nil => exact Nat.zero_le k
  | cons s ss ih =>
    unfold maxLen
    simp only [List.foldr_cons]
    have h1 := h s (List.mem_cons_self s ss)
    have h2 := ih fun x hx => h x (List.mem_cons_of_mem s hx)
    unfold maxLen at h2
    omega

theorem maxLen_singleton {α : Type} (s : List α) : maxLen [s] = s.length := by
  unfold maxLen
  simp

theorem mem_area_range_indices (boxes : List (List ℚ)) (a b : ℚ) (i : ℕ) :
    i ∈ area_range_indices boxes a b ↔
      i < boxes.length ∧
        (a ≤ bounding_box_area (boxes.getD i []) ∧
          bounding_box_area (boxes.getD i []) < b) := by
  rw [area_range_indices, mem_tfWhere_map (inAreaRange a b) boxes []]
  unfold inAreaRange
  simp

theorem getD_replicate_self {α : Type} (n i : ℕ) (a : α) :
    (List.replicate n a).getD i a = a := by
  rw [List.getD_eq_getElem?_getD, List.getElem?_replicate]
  by_cases h : i < n <;> simp [h]

theorem getD_set_ne {α : Type} (l : List α) (i j : ℕ) (a d : α) (h : i ≠ j) :
    (l.set i a).getD j d = l.getD j d := by
  rw [List.getD_eq_getElem?_getD, List.getD_eq_getElem?_getD,
    List.getElem?_set_ne h]

theorem getD_set_self {α : Type} (l : List α) (i : ℕ) (a d : α)
    (h : i < l.length) : (l.set i a).getD i d = a := by
  rw [List.getD_eq_getElem?_getD, List.getElem?_set_self h]
  rfl

theorem set_eq_self_of_getD {α : Type} (l : List α) (i : ℕ) (v d : α)
    (h : l.getD i d = v) : l.set i v = l := by
  apply List.ext_getElem?
  intro n
  by_cases hn : i = n
  · subst hn
    by_cases hl : i < l.length
    · rw [List.getElem?_set_self hl, List.getElem?_eq_getElem hl]
      rw [List.getD_eq_getElem?_getD, List.getElem?_eq_getElem hl] at h
      simp only [Option.getD_some] at h
      rw [h]
    · rw [List.getElem?_set, if_pos rfl, if_neg hl,
        List.getElem?_eq_none (by omega)]
  · rw [List.getElem?_set_ne hn]

theorem filter_ne_nodup_set (l : List ℤ) (d : ℕ) (m : ℤ)
    (hd : l.getD d (-1) = -1) (hm : m ∉ l)
    (hnd : (l.filter (fun x => decide (x ≠ -1))).Nodup) :
    ((l.set d m).filter (fun x => decide (x ≠ -1))).Nodup := by
  induction l generalizing d with
  | nil => simp
  | cons x xs ih =>
    cases d with
    | zero =>
      have hx : x = -1 := by simpa using hd
      subst hx
      rw [show ((-1 : ℤ) :: xs).set 0 m = m :: xs from rfl]
      rw [List.filter_cons_of_neg (by simp)] at hnd
      by_cases hm1 : m = -1
      · subst hm1
        rw [List.filter_cons_of_neg (by simp)]
        exact hnd
      · rw [List.filter_cons_of_pos (by simp [hm1]), List.nodup_cons]
        refine ⟨fun hmem => ?_, hnd⟩
        exact hm (List.mem_cons_of_mem _ (List.mem_of_mem_filter hmem))
    | succ d =>
      rw [show (x :: xs).set (d + 1) m = x :: xs.set d m from rfl]
      have hd' : xs.getD d (-1) = -1 := by simpa using hd
      have hm' : m ∉ xs := fun h => hm (List.mem_cons_of_mem _ h)
      by_cases hx : x = -1
      · subst hx
        rw [List.filter_cons_of_neg (by simp)] at hnd
        rw [List.filter_cons_of_neg (by simp)]
        exact ih d hd' hm' hnd
      · rw [List.filter_cons_of_pos (by simp [hx])] at hnd
        rw [List.filter_cons_of_pos (by simp [hx]), List.nodup_cons]
        rw [List.nodup_cons] at hnd
        refine ⟨fun hmem => ?_, ih d hd' hm' hnd.2⟩
        rcases List.mem_or_eq_of_mem_set (List.mem_of_mem_filter hmem) with h1 | h1
        · exact hnd.1 (List.mem_filter.mpr ⟨h1, by simp [hx]⟩)
        · exact hm (h1 ▸ List.mem_cons_self x xs)

theorem nodup_int_bound (L : List ℤ) (n : ℕ) (hnd : L.Nodup)
    (hb : ∀ x ∈ L, 0 ≤ x ∧ x < (n : ℤ)) : L.length ≤ n := by
  classical
  have h1 : L.toFinset.card = L.length := List.toFinset_card_of_nodup hnd
  have h2 : L.toFinset ⊆ Finset.Ico (0 : ℤ) (n : ℤ) := by
    intro x hx
    rw [List.mem_toFinset] at hx
    rw [Finset.mem_Ico]
    exact hb x hx
  have h3 := Finset.card_le_card h2
  rw [h1, Int.card_Ico] at h3
  omega

/-! ### Claims about filtering and ordering -/

/-- C7: filter_boxes_by_area_range keeps exactly the boxes whose area lies in
the half-open interval from min_area (inclusive) to max_area (exclusive),
and for a < b < c the index sets kept by the ranges from a to b and from b
to c are disjoint, with union the index set kept by the range from a to c. -/
theorem c7_area_range_partition (boxes : List (List ℚ)) (a b c : ℚ)
    (hab : a < b) (hbc : b < c) :
    filter_boxes_by_area_range boxes a b = boxes.filter (inAreaRange a b) ∧
      List.Disjoint (area_range_indices boxes a b) (area_range_indices boxes b c) ∧
      ∀ i : ℕ, i ∈ area_range_indices boxes a c ↔
        i ∈ area_range_indices boxes a b ∨ i ∈ area_range_indices boxes b c := by
  refine ⟨tfGather_tfWhere_map _ _, ?_, ?_⟩
  · intro i h1 h2
    rw [mem_area_range_indices] at h1 h2
    exact absurd (h2.2.1.trans_lt h1.2.2) (lt_irrefl b)
  · intro i
    rw [mem_area_range_indices, mem_area_range_indices, mem_area_range_indices]
    constructor
    · rintro ⟨hi, hge, hlt⟩
      rcases lt_or_le (bounding_box_area (boxes.getD i [])) b with h | h
      · exact Or.inl ⟨hi, hge, h⟩
      · exact Or.inr ⟨hi, h, hlt⟩
    · rintro (⟨hi, hge, hlt⟩ | ⟨hi, hge, hlt⟩)
      · exact ⟨hi, hge, hlt.trans hbc⟩
      · exact ⟨hi, hab.le.trans hge, hlt⟩

theorem c7_area_range_partition_witness :
    (0 : ℚ) < 1 ∧ (1 : ℚ) < 2 ∧
      (filter_boxes_by_area_range [[0, 0, 1, 1]] 0 1
          = List.filter (inAreaRange 0 1) [[0, 0, 1, 1]] ∧
        List.Disjoint (area_range_indices [[0, 0, 1, 1]] 0 1)
          (area_range_indices [[0, 0, 1, 1]] 1 2) ∧
        ∀ i : ℕ, i ∈ area_range_indices [[0, 0, 1, 1]] 0 2 ↔
          i ∈ area_range_indices [[0, 0, 1, 1]] 0 1 ∨
            i ∈ area_range_indices [[0, 0, 1, 1]] 1 2) :=
  ⟨by decide, by decide,
    c7_area_range_partition [[0, 0, 1, 1]] 0 1 2 (by decide) (by decide)⟩

/-- C8: filter_boxes keeps exactly the rows whose entry in the selected
column equals the target value, as an order-preserving sublist that may be
empty; on the concrete class column 1, -1, 2, 1 with target class 1 it keeps
exactly the rows at indices 0 and 3, in that order. -/
theorem c8_filter_by_class :
    (∀ (boxes : List (List ℚ)) (value : ℚ) (axis : ℕ),
        filter_boxes boxes value axis
            = boxes.filter (fun r => decide (r.getD axis 0 = value)) ∧
          (filter_boxes boxes value axis).Sublist boxes) ∧
      filter_boxes
          [[0, 0, 1, 1, 1, mkRat 9 10], [-1, -1, -1, -1, -1, -1],
            [0, 0, 2, 2, 2, mkRat 1 2], [0, 0, 3, 3, 1, mkRat 1 4]] 1 4
        = [[0, 0, 1, 1, 1, mkRat 9 10], [0, 0, 3, 3, 1, mkRat 1 4]] := by
  refine ⟨fun boxes value axis => ⟨tfGather_tfWhere_map _ _, ?_⟩, by decide⟩
  rw [show filter_boxes boxes value axis
      = tfGather boxes (tfWhere (boxes.map (fun r => decide (r.getD axis 0 = value))))
    from rfl]
  rw [tfGather_tfWhere_map]
  exact List.filter_sublist _

/-- C5: order_by_confidence can never return a sorted box set, because after
its confidence-key check every call reaches the reference to the undefined
name preds_for_img on line 119 of the source and raises NameError; shown
here on a well-formed single-image box set with a confidence sequence. -/
theorem c5_order_by_confidence_name_error :
    order_by_confidence ⟨some [[0, 0, 1, 1]], some [1], some [mkRat 1 2]⟩
      = .error (.nameError "preds_for_img") := rfl

/-- C9: filter_out_sentinels and get_boxes_for_image read the confidence key
unconditionally, so on any input whose dictionary has boxes and classes but
no confidence they fail with a missing-key error for confidence. -/
theorem c9_missing_confidence_key (b : List (List ℚ)) (c : List ℤ)
    (bb : List (List (List ℚ))) (cc : List (List ℤ)) (i : ℤ) :
    filter_out_sentinels ⟨some b, some c, none⟩
        = .error (.keyError "confidence") ∧
      get_boxes_for_image ⟨some bb, some cc, none⟩ i
        = .error (.keyError "confidence") :=
  ⟨rfl, rfl⟩

theorem tfIndex_eq {α : Type} (l : List α) (i : ℤ) (dflt : α) :
    tfIndex l i =
      if 0 ≤ i ∧ i < l.length then .ok (l.getD i.toNat dflt)
      else if -(l.length : ℤ) ≤ i ∧ i < 0 then
        .ok (l.getD (i + l.length).toNat dflt)
      else .error .invalidArgument := by
  simp only [tfIndex]
  by_cases hneg : i < 0
  · simp only [if_pos hneg]
    by_cases hin : -(l.length : ℤ) ≤ i
    · have h1 : ¬ (i + (l.length : ℤ) < 0) := by omega
      have hlt : (i + (l.length : ℤ)).toNat < l.length := by omega
      rw [if_neg h1, List.getElem?_eq_getElem hlt,
        if_neg (show ¬ (0 ≤ i ∧ i < (l.length : ℤ)) by omega),
        if_pos ⟨hin, hneg⟩, List.getD_eq_getElem?_getD,
        List.getElem?_eq_getElem hlt]
      rfl
    · have h1 : i + (l.length : ℤ) < 0 := by omega
      rw [if_pos h1, if_neg (show ¬ (0 ≤ i ∧ i < (l.length : ℤ)) by omega),
        if_neg (show ¬ (-(l.length : ℤ) ≤ i ∧ i < 0) by omega)]
  · simp only [if_neg hneg]
    by_cases hin : i < (l.length : ℤ)
    · have hlt : i.toNat < l.length := by omega
      rw [List.getElem?_eq_getElem hlt, if_pos ⟨by omega, hin⟩,
        List.getD_eq_getElem?_getD, List.getElem?_eq_getElem hlt]
      rfl
    · rw [List.getElem?_eq_none (by omega),
        if_neg (show ¬ (0 ≤ i ∧ i < (l.length : ℤ)) by omega),
        if_neg (show ¬ (-(l.length : ℤ) ≤ i ∧ i < 0) by omega)]

/-- C6 counterexample: on a batch of two images, the index -1 lies outside
the interval from 0 to the batch size, yet get_boxes_for_image returns the
last image instead of failing. -/
theorem c6_counterexample :
    get_boxes_for_image
        ⟨some [[[0, 0, 1, 1]], [[0, 0, 2, 2]]], some [[1], [2]],
          some [[mkRat 1 2], [mkRat 3 4]]⟩ (-1)
        = .ok ⟨some [[0, 0, 2, 2]], some [2], some [mkRat 3 4]⟩ ∧
      ¬ (0 : ℤ) ≤ -1 := ⟨rfl, by decide⟩

/-- C6 amended: on a well-formed batch of n images, get_boxes_for_image
returns the box set at position i for every i in the interval from 0
(inclusive) to n (exclusive), returns the box set at position i + n for
every negative i down to -n (inclusive), following Python negative
indexing, and fails with an index error only for i outside the interval
from -n to n. -/
theorem c6_get_boxes_for_image_spec (bb : List (List (List ℚ)))
    (cc : List (List ℤ)) (ff : List (List ℚ)) (n : ℕ) (i : ℤ)
    (hb : bb.length = n) (hc : cc.length = n) (hf : ff.length = n) :
    get_boxes_for_image ⟨some bb, some cc, some ff⟩ i =
      if 0 ≤ i ∧ i < n then
        .ok ⟨some (bb.getD i.toNat []), some (cc.getD i.toNat []),
          some (ff.getD i.toNat [])⟩
      else if -(n : ℤ) ≤ i ∧ i < 0 then
        .ok ⟨some (bb.getD (i + n).toNat []), some (cc.getD (i + n).toNat []),
          some (ff.getD (i + n).toNat [])⟩
      else .error .invalidArgument := by
  have hbb := tfIndex_eq bb i []
  have hcc := tfIndex_eq cc i []
  have hff := tfIndex_eq ff i []
  rw [hb] at hbb
  rw [hc] at hcc
  rw [hf] at hff
  unfold get_boxes_for_image getKey
  dsimp only [Except.bind]
  rw [hbb, hcc, hff]
  by_cases h1 : 0 ≤ i ∧ i < (n : ℤ)
  · rw [if_pos h1, if_pos h1, if_pos h1, if_pos h1]
  · rw [if_neg h1, if_neg h1, if_neg h1, if_neg h1]
    by_cases h2 : -(n : ℤ) ≤ i ∧ i < 0
    · rw [if_pos h2, if_pos h2, if_pos h2, if_pos h2]
    · rw [if_neg h2, if_neg h2, if_neg h2, if_neg h2]

theorem c6_get_boxes_for_image_spec_witness :
    ([[[0, 0, 1, 1]], [[0, 0, 2, 2]]] : List (List (List ℚ))).length = 2 ∧
      ([[1], [2]] : List (List ℤ)).length = 2 ∧
      ([[mkRat 1 2], [mkRat 3 4]] : List (List ℚ)).length = 2 ∧
      get_boxes_for_image
          ⟨some [[[0, 0, 1, 1]], [[0, 0, 2, 2]]], some [[1], [2]],
            some [[mkRat 1 2], [mkRat 3 4]]⟩ 1 =
        if 0 ≤ (1 : ℤ) ∧ (1 : ℤ) < (2 : ℕ) then
          .ok ⟨some (([[[0, 0, 1, 1]], [[0, 0, 2, 2]]] :
              List (List (List ℚ))).getD (1 : ℤ).toNat []),
            some (([[1], [2]] : List (List ℤ)).getD (1 : ℤ).toNat []),
            some (([[mkRat 1 2], [mkRat 3 4]] :
              List (List ℚ)).getD (1 : ℤ).toNat [])⟩
        else if -((2 : ℕ) : ℤ) ≤ 1 ∧ (1 : ℤ) < 0 then
          .ok ⟨some (([[[0, 0, 1, 1]], [[0, 0, 2, 2]]] :
              List (List (List ℚ))).getD ((1 : ℤ) + (2 : ℕ)).toNat []),
            some (([[1], [2]] : List (List ℤ)).getD ((1 : ℤ) + (2 : ℕ)).toNat []),
            some (([[mkRat 1 2], [mkRat 3 4]] :
              List (List ℚ)).getD ((1 : ℤ) + (2 : ℕ)).toNat [])⟩
        else .error .invalidArgument :=
  ⟨rfl, rfl, rfl,
    c6_get_boxes_for_image_spec [[[0, 0, 1, 1]], [[0, 0, 2, 2]]] [[1], [2]]
      [[mkRat 1 2], [mkRat 3 4]] 2 1 rfl rfl rfl⟩

theorem to_sentinel_padded_classes_singleton (c : List ℤ) :
    to_sentinel_padded_classes [c] = [c] := by
  unfold to_sentinel_padded_classes
  rw [List.map_singleton, maxLen_singleton, padTo_eq_self _ _ _ (le_refl _)]

theorem to_sentinel_padded_confidence_singleton (f : List ℚ) :
    to_sentinel_padded_confidence [f] = [f] := by
  unfold to_sentinel_padded_confidence
  rw [List.map_singleton, maxLen_singleton, padTo_eq_self _ _ _ (le_refl _)]

theorem to_sentinel_padded_boxes_singleton (b : List (List ℚ))
    (hrow : ∀ r ∈ b, r.length = 4) : to_sentinel_padded_boxes [b] = [b] := by
  unfold to_sentinel_padded_boxes
  rw [List.map_singleton, maxLen_singleton, Nat.sub_self, List.replicate_zero,
    List.append_nil]
  have hbound : rowMax [[b].getD 0 []] ≤ 4 := by
    rw [show ([b].getD 0 []) = b from rfl]
    unfold rowMax
    simp only [List.foldr_cons, List.foldr_nil, Nat.max_zero]
    exact maxLen_le b 4 fun r hr => le_of_eq (hrow r hr)
  have hpad : ∀ r ∈ b, padTo r (rowMax [b]) (-1) = r := fun r hr =>
    padTo_eq_self _ _ _ (by rw [hrow r hr]; exact hbound)
  rw [List.map_congr_left hpad |>.trans (List.map_id b)]

theorem filter_out_sentinels_no_sentinels (b : List (List ℚ)) (c : List ℤ)
    (f : List ℚ) (hc : c.length = b.length) (hf : f.length = b.length)
    (hsent : ∀ x ∈ c, x ≠ -1) :
    filter_out_sentinels ⟨some b, some c, some f⟩
      = .ok ⟨some b, some c, some f⟩ := by
  unfold filter_out_sentinels getKey
  dsimp only [Except.bind]
  have hw : tfWhere (c.map (fun x => decide (x ≠ -1))) = List.range c.length :=
    tfWhere_map_all_true _ _ (fun x hx => by simpa using hsent x hx)
  rw [hw]
  have h1 : tfGather b (List.range c.length) = b := by
    rw [hc]; exact tfGather_range b
  have h2 := tfGather_range c
  have h3 : tfGather f (List.range c.length) = f := by
    rw [hc, ← hf]; exact tfGather_range f
  rw [h1, h2, h3]

/-- C4: the round-trip law: a box set with no sentinel rows, padded as a
singleton batch, sliced back out at image index 0, and stripped of sentinel
rows, is reproduced exactly, row for row and in the original order. -/
theorem c4_round_trip (b : List (List ℚ)) (c : List ℤ) (f : List ℚ)
    (hrow : ∀ r ∈ b, r.length = 4) (hc : c.length = b.length)
    (hf : f.length = b.length) (hsent : ∀ x ∈ c, x ≠ -1) :
    (get_boxes_for_image
        ⟨some (to_sentinel_padded_boxes [b]), some (to_sentinel_padded_classes [c]),
          some (to_sentinel_padded_confidence [f])⟩ 0).bind filter_out_sentinels
      = .ok ⟨some b, some c, some f⟩ := by
  rw [to_sentinel_padded_boxes_singleton b hrow,
    to_sentinel_padded_classes_singleton, to_sentinel_padded_confidence_singleton]
  have hget : get_boxes_for_image ⟨some [b], some [c], some [f]⟩ 0
      = .ok ⟨some b, some c, some f⟩ := rfl
  rw [hget]
  exact filter_out_sentinels_no_sentinels b c f hc hf hsent

theorem c4_round_trip_witness :
    (∀ r ∈ [[(0 : ℚ), 0, 1, 1]], r.length = 4) ∧
      ([(3 : ℤ)] : List ℤ).length = [[(0 : ℚ), 0, 1, 1]].length ∧
      ([mkRat 1 2] : List ℚ).length = [[(0 : ℚ), 0, 1, 1]].length ∧
      (∀ x ∈ [(3 : ℤ)], x ≠ -1) ∧
      (get_boxes_for_image
          ⟨some (to_sentinel_padded_boxes [[[(0 : ℚ), 0, 1, 1]]]),
            some (to_sentinel_padded_classes [[(3 : ℤ)]]),
            some (to_sentinel_padded_confidence [[mkRat 1 2]])⟩ 0).bind
          filter_out_sentinels
        = .ok ⟨some [[(0 : ℚ), 0, 1, 1]], some [(3 : ℤ)], some [mkRat 1 2]⟩ :=
  ⟨by decide, rfl, rfl, by decide,
    c4_round_trip [[(0 : ℚ), 0, 1, 1]] [(3 : ℤ)] [mkRat 1 2]
      (by decide) rfl rfl (by decide)⟩

/-- C10: filter_boxes_by_area_range preserves the relative order of the rows
it keeps: the selected index list is strictly increasing and the output is a
sublist of the input. -/
theorem c10_area_filter_preserves_order (boxes : List (List ℚ))
    (min_area max_area : ℚ) :
    List.Pairwise (· < ·) (area_range_indices boxes min_area max_area) ∧
      (filter_boxes_by_area_range boxes min_area max_area).Sublist boxes := by
  constructor
  · exact tfWhere_pairwise _
  · rw [show filter_boxes_by_area_range boxes min_area max_area
        = tfGather boxes (tfWhere (boxes.map (inAreaRange min_area max_area)))
      from rfl]
    rw [tfGather_tfWhere_map]
    exact List.filter_sublist _

/-! ### The greedy matcher -/

theorem bestLoop_cons (f : ℕ → ℚ) (gt : List ℤ) (cur : ℚ × ℤ) (g : ℕ)
    (gs : List ℕ) :
    bestLoop f gt cur (g :: gs) =
      if gt.getD g (-1) > -1 then bestLoop f gt cur gs
      else if f g < cur.1 then bestLoop f gt cur gs
      else bestLoop f gt (f g, (g : ℤ)) gs := rfl

theorem matchLoop_nil (f : ℕ → ℕ → ℚ) (nt : ℕ) (t : ℚ)
    (gt preds : List ℤ) :
    matchLoop f nt t gt preds [] = preds := rfl

theorem matchLoop_cons (f : ℕ → ℕ → ℚ) (nt : ℕ) (t : ℚ)
    (gt preds : List ℤ) (d : ℕ) (ds : List ℕ) :
    matchLoop f nt t gt preds (d :: ds) =
      (let best := bestLoop (fun g => f g d) gt (min t epsClamp, -1) (List.range nt)
       if best.2 = -1 then matchLoop f nt t gt (preds.set d best.2) ds
       else matchLoop f nt t (gt.set best.2.toNat (d : ℤ)) (preds.set d best.2) ds) :=
  rfl

theorem bestLoop_spec (f : ℕ → ℚ) (gt : List ℤ) (cur : ℚ × ℤ) (l : List ℕ) :
    bestLoop f gt cur l = cur ∨
      ∃ g ∈ l, bestLoop f gt cur l = (f g, (g : ℤ)) ∧
        ¬ gt.getD g (-1) > -1 ∧ cur.1 ≤ f g := by
  induction l generalizing cur with
  | nil => exact Or.inl rfl
  | cons g gs ih =>
    by_cases h1 : gt.getD g (-1) > -1
    · rw [bestLoop_cons, if_pos h1]
      rcases ih cur with h | ⟨g', hg', he, hel, hle⟩
      · exact Or.inl h
      · exact Or.inr ⟨g', List.mem_cons_of_mem _ hg', he, hel, hle⟩
    · by_cases h2 : f g < cur.1
      · rw [bestLoop_cons, if_neg h1, if_pos h2]
        rcases ih cur with h | ⟨g', hg', he, hel, hle⟩
        · exact Or.inl h
        · exact Or.inr ⟨g', List.mem_cons_of_mem _ hg', he, hel, hle⟩
      · rw [bestLoop_cons, if_neg h1, if_neg h2]
        rcases ih (f g, (g : ℤ)) with h | ⟨g', hg', he, hel, hle⟩
        · exact Or.inr ⟨g, List.mem_cons_self _ _, h, h1, le_of_not_lt h2⟩
        · refine Or.inr ⟨g', List.mem_cons_of_mem _ hg', he, hel, ?_⟩
          exact le_trans (le_of_not_lt h2) hle

theorem bestLoop_append (f : ℕ → ℚ) (gt : List ℤ) (cur : ℚ × ℤ)
    (l1 l2 : List ℕ) :
    bestLoop f gt cur (l1 ++ l2) = bestLoop f gt (bestLoop f gt cur l1) l2 := by
  induction l1 generalizing cur with
  | nil => rfl
  | cons g gs ih =>
    rw [List.cons_append, bestLoop_cons, bestLoop_cons]
    by_cases h1 : gt.getD g (-1) > -1
    · rw [if_pos h1, if_pos h1, ih]
    · by_cases h2 : f g < cur.1
      · rw [if_neg h1, if_neg h1, if_pos h2, if_pos h2, ih]
      · rw [if_neg h1, if_neg h1, if_neg h2, if_neg h2, ih]

theorem bestLoop_fst_le (f : ℕ → ℚ) (gt : List ℤ) (cur : ℚ × ℤ) (l : List ℕ)
    (v : ℚ) (hcur : cur.1 ≤ v) (hl : ∀ g ∈ l, f g ≤ v) :
    (bestLoop f gt cur l).1 ≤ v := by
  rcases bestLoop_spec f gt cur l with h | ⟨g, hg, he, _, _⟩
  · rw [h]; exact hcur
  · rw [he]; exact hl g hg

theorem matcher_inv_init (nt np : ℕ) (f : ℕ → ℕ → ℚ) (t : ℚ) :
    MatcherInv nt f t (List.replicate nt (-1)) (List.replicate np (-1))
      (List.range np) := by
  refine ⟨List.length_replicate nt (-1), List.nodup_range np, ?_, ?_, ?_, ?_⟩
  · intro d hd
    rw [List.mem_range] at hd
    exact ⟨by rw [List.length_replicate]; exact hd, getD_replicate_self _ _ _⟩
  · intro x hx
    exact Or.inl (List.eq_of_mem_replicate hx)
  · have h : (List.replicate np (-1 : ℤ)).filter (fun x => decide (x ≠ -1)) = [] :=
      List.filter_eq_nil_iff.mpr fun a ha => by
        rw [List.eq_of_mem_replicate ha]; simp
    rw [h]
    exact List.nodup_nil
  · intro j hj
    rw [getD_replicate_self] at hj
    exact absurd hj (by decide)

theorem matchLoop_post (nt : ℕ) (f : ℕ → ℕ → ℚ) (t : ℚ) :
    ∀ (ds : List ℕ) (gt preds : List ℤ), MatcherInv nt f t gt preds ds →
      MatcherPost nt preds.length f t (matchLoop f nt t gt preds ds) := by
  intro ds
  induction ds with
  | nil =>
    intro gt preds hinv
    obtain ⟨_, _, _, hval, hfilter, hthr⟩ := hinv
    exact ⟨rfl, fun x hx => (hval x hx).imp id fun h => ⟨h.1, h.2.1⟩, hfilter, hthr⟩
  | cons d ds ih =>
    intro gt preds hinv
    obtain ⟨hlen, hnd, hpos, hval, hfilter, hthr⟩ := hinv
    have hd := hpos d (List.mem_cons_self d ds)
    rcases bestLoop_spec (fun g => f g d) gt (min t epsClamp, -1) (List.range nt) with
      hbest | ⟨g, hgmem, hbest, hel, hge⟩
    · have hstep : matchLoop f nt t gt preds (d :: ds)
          = matchLoop f nt t gt (preds.set d (-1)) ds := by
        rw [matchLoop_cons, hbest]
        rfl
      have hset : preds.set d (-1) = preds :=
        set_eq_self_of_getD preds d (-1) (-1) hd.2
      rw [hstep, hset]
      refine ih gt preds ⟨hlen, (List.nodup_cons.mp hnd).2, ?_, hval, hfilter, hthr⟩
      exact fun d' hd' => hpos d' (List.mem_cons_of_mem _ hd')
    · have hglt : g < nt := List.mem_range.mp hgmem
      have hnotin : ((g : ℤ)) ∉ preds := by
        intro hin
        rcases hval _ hin with h | ⟨_, _, hmark⟩
        · omega
        · rw [Int.toNat_natCast] at hmark
          exact hel hmark
      have hne : ¬ ((g : ℤ) = -1) := by omega
      have hstep : matchLoop f nt t gt preds (d :: ds)
          = matchLoop f nt t (gt.set g (d : ℤ)) (preds.set d (g : ℤ)) ds := by
        rw [matchLoop_cons, hbest]
        dsimp only
        rw [if_neg hne, Int.toNat_natCast]
      rw [hstep]
      have hinv' : MatcherInv nt f t (gt.set g (d : ℤ)) (preds.set d (g : ℤ)) ds := by
        refine ⟨by rw [List.length_set]; exact hlen, (List.nodup_cons.mp hnd).2,
          ?_, ?_, ?_, ?_⟩
        · intro d' hd'
          have hd'' := hpos d' (List.mem_cons_of_mem _ hd')
          have hddne : d ≠ d' := fun h => (List.nodup_cons.mp hnd).1 (h ▸ hd')
          exact ⟨by rw [List.length_set]; exact hd''.1,
            by rw [getD_set_ne _ _ _ _ _ hddne]; exact hd''.2⟩
        · intro x hx
          rcases List.mem_or_eq_of_mem_set hx with hx' | rfl
          · rcases hval x hx' with h | ⟨hge0, hlt, hmark⟩
            · exact Or.inl h
            · refine Or.inr ⟨hge0, hlt, ?_⟩
              have hneq : g ≠ x.toNat := by
                intro hEq
                apply hel
                rw [hEq]
                exact hmark
              rw [getD_set_ne _ _ _ _ _ hneq]
              exact hmark
          · refine Or.inr ⟨by omega, by exact_mod_cast hglt, ?_⟩
            rw [Int.toNat_natCast, getD_set_self _ _ _ _ (by rw [hlen]; exact hglt)]
            omega
        · exact filter_ne_nodup_set preds d (g : ℤ) hd.2 hnotin hfilter
        · intro j hj
          by_cases hjd : j = d
          · subst hjd
            rw [getD_set_self _ _ _ _ hd.1] at hj ⊢
            rw [Int.toNat_natCast]
            exact hge
          · rw [getD_set_ne _ _ _ _ _ (fun h => hjd h.symm)] at hj ⊢
            exact hthr j hj
      have hres := ih (gt.set g (d : ℤ)) (preds.set d (g : ℤ)) hinv'
      rwa [List.length_set] at hres

theorem match_boxes_post (nt np : ℕ) (f : ℕ → ℕ → ℚ) (t : ℚ) :
    MatcherPost nt np f t (match_boxes nt np f t) := by
  have h := matchLoop_post nt f t (List.range np) (List.replicate nt (-1))
    (List.replicate np (-1)) (matcher_inv_init nt np f t)
  rwa [List.length_replicate] at h

/-- C1 counterexample: both ground-truth boxes have the identical IoU 4/5
with the single predicted box, which is at least the threshold 1/2, yet the
recorded match is ground-truth index 1, not the lowest index 0 that the
claim requires. -/
theorem c1_counterexample :
    match_boxes 2 1 (fun _ _ => mkRat 4 5) (mkRat 1 2) = [1] ∧ (1 : ℤ) ≠ 0 := by
  decide

/-- C1 amended: because the inner scan skips a candidate only on strictly
smaller IoU, a tie is resolved in favour of the latest-scanned candidate:
with a single predicted box and all n ground-truth candidates tied at an
IoU at least the clamped threshold, the ground-truth with the highest
index, n - 1, wins. -/
theorem c1_tie_goes_to_latest (n : ℕ) (f : ℕ → ℕ → ℚ) (t v : ℚ)
    (hn : 2 ≤ n) (hall : ∀ g, g < n → f g 0 = v) (hv : min t epsClamp ≤ v) :
    match_boxes n 1 f t = [(n : ℤ) - 1] := by
  obtain ⟨m, rfl⟩ : ∃ m, n = m + 1 := ⟨n - 1, by omega⟩
  have hgt : ∀ g : ℕ, ¬ (List.replicate (m + 1) (-1 : ℤ)).getD g (-1) > -1 := by
    intro g
    rw [getD_replicate_self]
    decide
  have hmid_le : (bestLoop (fun g => f g 0) (List.replicate (m + 1) (-1))
      (min t epsClamp, -1) (List.range m)).1 ≤ v := by
    apply bestLoop_fst_le
    · exact hv
    · intro g hg
      rw [List.mem_range] at hg
      rw [hall g (by omega)]
  have hfm : f m 0 = v := hall m (by omega)
  have hlast : bestLoop (fun g => f g 0) (List.replicate (m + 1) (-1))
      (min t epsClamp, -1) (List.range (m + 1)) = (v, (m : ℤ)) := by
    rw [List.range_succ, bestLoop_append, bestLoop_cons, if_neg (hgt m),
      if_neg (not_lt.mpr (hfm ▸ hmid_le))]
    rw [show bestLoop (fun g => f g 0) (List.replicate (m + 1) (-1))
        ((fun g => f g 0) m, (m : ℤ)) [] = ((fun g => f g 0) m, (m : ℤ)) from rfl]
    rw [show ((fun g => f g 0) m) = f m 0 from rfl, hfm]
  have hne : ¬ ((m : ℤ) = -1) := by omega
  show matchLoop f (m + 1) t (List.replicate (m + 1) (-1))
      (List.replicate 1 (-1)) (List.range 1) = _
  rw [show List.range 1 = [0] from rfl, matchLoop_cons, hlast]
  dsimp only
  rw [if_neg hne, Int.toNat_natCast]
  rw [show (List.replicate 1 (-1 : ℤ)).set 0 (m : ℤ) = [(m : ℤ)] from rfl]
  rw [matchLoop_nil]
  rw [show ((m + 1 : ℕ) : ℤ) - 1 = (m : ℤ) by push_cast; ring]

theorem c1_tie_goes_to_latest_witness :
    2 ≤ 2 ∧ (∀ g, g < 2 → (fun _ _ => mkRat 4 5 : ℕ → ℕ → ℚ) g 0 = mkRat 4 5) ∧
      min (mkRat 1 2) epsClamp ≤ mkRat 4 5 ∧
      match_boxes 2 1 (fun _ _ => mkRat 4 5) (mkRat 1 2) = [(2 : ℤ) - 1] :=
  ⟨by decide, by decide, by decide,
    c1_tie_goes_to_latest 2 (fun _ _ => mkRat 4 5) (mkRat 1 2) (mkRat 4 5)
      (by decide) (by decide) (by decide)⟩

/-- C2: the match result never assigns a ground-truth index twice: the
non-sentinel entries of the result are pairwise distinct, and there are at
most min(numGroundTruth, numPredicted) of them. -/
theorem c2_matcher_cardinality (nt np : ℕ) (f : ℕ → ℕ → ℚ) (t : ℚ) :
    ((match_boxes nt np f t).filter (fun x => decide (x ≠ -1))).Nodup ∧
      ((match_boxes nt np f t).filter (fun x => decide (x ≠ -1))).length
        ≤ min nt np := by
  obtain ⟨hlen, hval, hnd, _⟩ := match_boxes_post nt np f t
  refine ⟨hnd, le_min ?_ ?_⟩
  · apply nodup_int_bound _ nt hnd
    intro x hx
    rw [List.mem_filter] at hx
    rcases hval x hx.1 with h | h
    · exact absurd h (by simpa using hx.2)
    · exact h
  · calc ((match_boxes nt np f t).filter (fun x => decide (x ≠ -1))).length
        ≤ (match_boxes nt np f t).length := List.length_filter_le _ _
      _ = np := hlen

/-- C3 counterexample: with threshold exactly 1 the initial best-IoU is
clamped down to 1 - 1e-10, so the pair (0, 0) of IoU exactly 1 - 1e-10 is
matched although its IoU is strictly below the threshold. -/
theorem c3_counterexample :
    match_boxes 1 1 (fun _ _ => epsClamp) 1 = [0] ∧ epsClamp < 1 := by
  decide

/-- C3 amended: every matched pair (i, j) of match_boxes satisfies
iou[i][j] >= min(threshold, 1 - 1e-10); for thresholds at most 1 - 1e-10
this is exactly iou[i][j] >= threshold, but for larger thresholds pairs
with IoU in [1 - 1e-10, threshold) may also be matched. -/
theorem c3_matched_iou_ge_clamped (nt np : ℕ) (f : ℕ → ℕ → ℚ) (t : ℚ)
    (j : ℕ) (h0 : 0 ≤ (match_boxes nt np f t).getD j (-1)) :
    min t epsClamp ≤ f ((match_boxes nt np f t).getD j (-1)).toNat j :=
  (match_boxes_post nt np f t).2.2.2 j h0

theorem c3_matched_iou_ge_clamped_witness :
    0 ≤ (match_boxes 1 1 (fun _ _ => 1) (mkRat 1 2)).getD 0 (-1) ∧
      min (mkRat 1 2) epsClamp ≤
        (fun _ _ => (1 : ℚ)) ((match_boxes 1 1 (fun _ _ => 1)
          (mkRat 1 2)).getD 0 (-1)).toNat 0 :=
  ⟨by decide, c3_matched_iou_ge_clamped 1 1 (fun _ _ => 1) (mkRat 1 2) 0 (by decide)⟩
